import Mathlib

/-!
Verification of the vhs-ai-pipeline core against its specification.

Shallow embedding of the pure core of the repository:
  - config.py        : the fixed chunking / retry constants;
  - preprocess.py    : chunk_video (the while loop is embedded with explicit
    fuel, since its termination is exactly what is at stake; seconds are
    modelled as rationals, which represent every value the pipeline feeds in
    exactly);
  - progress.py      : the ProgressTracker ledger (mark_done, mark_failed,
    failed_files) and the with_retry wrapper (sleeps and the number of calls
    to fn are recorded in the outcome instead of being performed);
  - analyze.py       : merge_chunk_results and the JSON span extractor
    _parse_json_response (texts are lists of characters, json.loads is an
    abstract parser argument, markdown fence cleanup included);
  - vhs_analyzer.py  : the retry-failed selection block of main and the
    per-video body of enrich_with_blind.

Segments and chunk results are open dictionaries in the source; they are
embedded as records carrying the fields the core reads or writes plus an
opaque payload string standing for all remaining fields.
-/

namespace VHS

/-- config.py line 22: CHUNK_DURATION_S = 50 * 60. -/
def CHUNK_DURATION_S : ℚ := 50 * 60

/-- config.py line 23: CHUNK_OVERLAP_S = 30. -/
def CHUNK_OVERLAP_S : ℚ := 30

/-- config.py line 28: MAX_RETRIES = 3. -/
def MAX_RETRIES : Nat := 3

/-- config.py line 29: RETRY_BACKOFF = [30, 90, 270] (seconds). -/
def RETRY_BACKOFF : List Nat := [30, 90, 270]

/-- One entry of the list returned by preprocess.chunk_video: the dict
holds path, start_s and end_s; the path is determined by the index and is
irrelevant to the claims, so only the two times are kept. -/
structure Chunk where
  start_s : ℚ
  end_s : ℚ
deriving DecidableEq

/-- preprocess.py lines 79-107, the body of chunk_video. The Python while
loop carries (start, chunks); each iteration with start < duration_s appends
the chunk [start, min(start + CHUNK_DURATION_S, duration_s)) and sets
start to end - CHUNK_OVERLAP_S. The loop has no other exit, so it is
embedded with a fuel parameter: none means the fuel ran out while the loop
condition still held. -/
def chunkAux (duration_s : ℚ) : Nat → ℚ → List Chunk → Option (List Chunk)
  | 0, _, _ => none
  | fuel + 1, start, chunks =>
    if start < duration_s then
      chunkAux duration_s fuel
        (min (start + CHUNK_DURATION_S) duration_s - CHUNK_OVERLAP_S)
        (chunks ++ [⟨start, min (start + CHUNK_DURATION_S) duration_s⟩])
    else
      some chunks

/-- preprocess.chunk_video for a given duration: the loop starts from
start = 0 with an empty chunk list. -/
def chunk_video (duration_s : ℚ) (fuel : Nat) : Option (List Chunk) :=
  chunkAux duration_s fuel 0 []

/-- One record of the "failed" list of .progress.json:
a dict with keys file, error, attempts (progress.py line 51). -/
structure FailRec where
  file : String
  error : String
  attempts : Nat
deriving DecidableEq

/-- The mutable state of progress.ProgressTracker: the "processed" and
"failed" entries of ._data (progress.py lines 25-30); the timestamps and
the pending list are never read by the core. -/
structure Tracker where
  processed : List String
  failed : List FailRec
deriving DecidableEq

/-- The fresh ledger created by ProgressTracker._load when no progress
file exists (progress.py lines 25-30). -/
def emptyTracker : Tracker := ⟨[], []⟩

/-- progress.py lines 39-43, ProgressTracker.mark_done: append the name to
processed if absent, then drop every failure record for that name. -/
def mark_done (tr : Tracker) (video_name : String) : Tracker :=
  { processed :=
      if video_name ∈ tr.processed then tr.processed
      else tr.processed ++ [video_name]
  , failed := tr.failed.filter (fun f => f.file != video_name) }

/-- The in-place update performed by ProgressTracker.mark_failed when
next(...) finds an existing record: only the first record whose file
matches is rewritten (progress.py lines 46-49). -/
def updateFirstFail : List FailRec → String → String → Nat → List FailRec
  | [], _, _, _ => []
  | f :: rest, name, error, attempts =>
    if f.file == name then { f with error := error, attempts := attempts } :: rest
    else f :: updateFirstFail rest name error attempts

/-- progress.py lines 45-52, ProgressTracker.mark_failed: upsert by file
name into the failed list; the processed list is not touched. -/
def mark_failed (tr : Tracker) (name error : String) (attempts : Nat) : Tracker :=
  if tr.failed.any (fun f => f.file == name) then
    { tr with failed := updateFirstFail tr.failed name error attempts }
  else
    { tr with failed := tr.failed ++ [⟨name, error, attempts⟩] }

/-- progress.py lines 54-56, the failed_files property. -/
def failed_files (tr : Tracker) : List String := tr.failed.map (·.file)

/-- The observable outcome of one progress.with_retry call: the returned
value (None on exhaustion), the ledger afterwards, how many times fn was
invoked, and the sleep durations performed between attempts, in order. -/
structure RetryOutcome (α : Type) where
  result : Option α
  tracker : Tracker
  calls : Nat
  sleeps : List Nat
deriving DecidableEq

/-- progress.py lines 70-86, the attempt loop of with_retry. The
zero-argument fn of the source may behave differently on each call, so it
is embedded as a function of the attempt number returning either a value
or the text of the exception it raises. The first argument counts the
attempts remaining out of MAX_RETRIES, the second is the 1-based attempt
number of the source loop. -/
def withRetryGo {α : Type} (fn : Nat → Except String α) (video_name : String) :
    Nat → Nat → String → Tracker → Nat → List Nat → RetryOutcome α
  | 0, _, lastError, tracker, calls, sleeps =>
    { result := none
    , tracker := mark_failed tracker video_name lastError MAX_RETRIES
    , calls := calls
    , sleeps := sleeps }
  | remaining + 1, attempt, lastError, tracker, calls, sleeps =>
    match fn attempt with
    | Except.ok v =>
      { result := some v
      , tracker := mark_done tracker video_name
      , calls := calls + 1
      , sleeps := sleeps }
    | Except.error e =>
      if attempt < MAX_RETRIES then
        withRetryGo fn video_name remaining (attempt + 1) e tracker (calls + 1)
          (sleeps ++ [RETRY_BACKOFF.getD (attempt - 1) 0])
      else
        withRetryGo fn video_name remaining (attempt + 1) e tracker (calls + 1) sleeps

/-- progress.with_retry: run the attempt loop for attempt = 1..MAX_RETRIES
starting with last_error = "" and no sleeps performed. -/
def with_retry {α : Type} (fn : Nat → Except String α) (video_name : String)
    (tracker : Tracker) : RetryOutcome α :=
  withRetryGo fn video_name MAX_RETRIES 1 "" tracker 0 []

/-- One segment dict of an analysis result. The core reads tc_start
(absent keys are modelled as none), and enrich_with_blind reads the three
blind-pass fields from secondary segments and writes them, always together,
onto primary segments (blind_fields = none means the three blind keys are
absent). Every other key of the dict is summarised by the opaque payload. -/
structure Seg where
  tc_start : Option String
  ce_qui_me_retient : Option String := none
  tension_visible : Option String := none
  description_pure : Option String := none
  blind_fields : Option (Option String × Option String × Option String) := none
  payload : String := ""
deriving DecidableEq

/-- The dedup key of a segment, analyze.py line 198:
seg.get("tc_start", "") — a missing tc_start defaults to the empty string. -/
def segKey (s : Seg) : String := s.tc_start.getD ""

/-- One per-chunk analysis dict as consumed by merge_chunk_results:
video_profil and observations_globales are opaque JSON values (the merge
copies them wholesale), segments is the list the merge dedups. A missing
segments key is modelled by the empty list, matching .get("segments", []). -/
structure ChunkResult where
  video_profil : String
  segments : List Seg
  observations_globales : String
deriving DecidableEq

/-- analyze.py lines 195-201, the dedup loop of merge_chunk_results: walk
the segments of all chunks in order (the two nested for loops traverse
exactly the concatenation), keeping a segment only when its key was not
seen before; seen is a set, embedded as the list of keys added so far. -/
def dedupSegs : List Seg → List String → List Seg
  | [], _ => []
  | s :: rest, seen =>
    if segKey s ∈ seen then dedupSegs rest seen
    else s :: dedupSegs rest (segKey s :: seen)

/-- The concatenation, in chunk order, of the segment lists of a list of
chunk results (the iteration domain of the nested loops of
merge_chunk_results). -/
def allSegs : List ChunkResult → List Seg
  | [] => []
  | r :: rs => r.segments ++ allSegs rs

/-- analyze.py lines 181-205, merge_chunk_results. An empty input raises
IndexError in the source (chunk_results[0] on line 190), hence none. A
singleton list is returned unchanged (line 187). Otherwise the profile is
taken from the first chunk, the segments are deduped by key with first
occurrence winning, and the global observations come from the last chunk
(chunk_results[-1], line 204). -/
def merge_chunk_results : List ChunkResult → Option ChunkResult
  | [] => none
  | [r] => some r
  | r :: rs =>
    some { video_profil := r.video_profil
         , segments := dedupSegs (allSegs (r :: rs)) []
         , observations_globales :=
             ((r :: rs).getLast (List.cons_ne_nil r rs)).observations_globales }

/-- The key under which a blind segment is indexed by the dict
comprehension of enrich_with_blind (vhs_analyzer.py lines 251-255): the
segment participates only if s.get("tc_start") is truthy, that is, present
and a non-empty string. -/
def truthyKey (s : Seg) : Option String :=
  match s.tc_start with
  | some t => if t = "" then none else some t
  | none => none

/-- The lookup blind_by_tc[tc] of vhs_analyzer.py: the dict comprehension
maps each truthy tc_start to its segment, later segments overwriting
earlier ones, so the lookup returns the last blind segment with that key. -/
def blind_by_tc (bsegs : List Seg) (tc : String) : Option Seg :=
  (bsegs.filter (fun s => truthyKey s == some tc)).getLast?

/-- vhs_analyzer.py lines 256-262, the per-segment body of
enrich_with_blind: when the primary segment has a truthy tc_start that is a
key of blind_by_tc, the three blind fields are written onto it; otherwise
it is left unmodified. -/
def enrichSeg (bsegs : List Seg) (seg : Seg) : Seg :=
  match seg.tc_start with
  | none => seg
  | some tc =>
    if tc = "" then seg
    else
      match blind_by_tc bsegs tc with
      | none => seg
      | some b =>
        { seg with
          blind_fields := some (b.ce_qui_me_retient, b.tension_visible, b.description_pure) }

/-- vhs_analyzer.py lines 247-263, the per-video body of enrich_with_blind
(the source loops this over the dict of analyses, skipping videos with no
blind result; the loop only touches the segments list of each analysis). -/
def enrich_with_blind (analysis blind : ChunkResult) : ChunkResult :=
  { analysis with segments := analysis.segments.map (enrichSeg blind.segments) }

/-- vhs_analyzer.py lines 368-370: the failure-record clearing performed
for each selected video in retry-failed mode. -/
def clear_failure (t : Tracker) (v : String) : Tracker :=
  { t with failed := t.failed.filter (fun f => f.file != v) }

/-- vhs_analyzer.py lines 360-371, the retry-failed block of main: videos
(identified here by their names) are restricted to those whose name occurs
in the failed list, then the failure record of each selected video is
cleared. Returns the selected names and the ledger after clearing. The
source exits when the selection is empty; here that is the pair ([], tr). -/
def retry_failed_filter (videos : List String) (tracker : Tracker) :
    List String × Tracker :=
  let selected := videos.filter (fun v => decide (v ∈ failed_files tracker))
  (selected, selected.foldl clear_failure tracker)

/-- Python str whitespace, as stripped by str.strip() with no argument. -/
def pyIsSpace (c : Char) : Bool :=
  c = ' ' || c = '\t' || c = '\n' || c = '\r' || c = '\x0b' || c = '\x0c'

/-- Python text.strip(): drop whitespace from both ends. -/
def pyStrip (l : List Char) : List Char :=
  ((l.dropWhile pyIsSpace).reverse.dropWhile pyIsSpace).reverse

/-- The backtick character. -/
def btick : Char := Char.ofNat 96

/-- The three-backtick markdown fence tested for by _parse_json_response. -/
def fence3 : List Char := [btick, btick, btick]

/-- analyze.py lines 57-60 of _parse_json_response: strip the text and,
when it starts with a markdown fence, drop the first line and — when the
last line is itself a fence — the last line, rejoining with newlines. -/
def cleanup (text : List Char) : List Char :=
  let t := pyStrip text
  if t.take 3 = fence3 then
    let lines := t.splitOn '\n'
    List.intercalate ['\n']
      (if pyStrip (lines.getLastD []) = fence3 then (lines.drop 1).dropLast
       else lines.drop 1)
  else t

/-- Python text.find(c) for a single character: index of the first
occurrence, or -1 when absent. -/
def pyFind : List Char → Char → Int
  | [], _ => -1
  | x :: xs, c =>
    if x = c then 0
    else if pyFind xs c = -1 then -1 else pyFind xs c + 1

/-- Python text.rfind(c) for a single character: index of the last
occurrence, or -1 when absent. -/
def pyRFind : List Char → Char → Int
  | [], _ => -1
  | x :: xs, c =>
    if pyRFind xs c = -1 then (if x = c then 0 else -1)
    else pyRFind xs c + 1

/-- analyze.py lines 63-66: start = min of text.find(c) over the opening
characters present in the text, or -1 when neither occurs. -/
def startIdx (l : List Char) : Int :=
  match (['{', '['].filter (fun c => decide (c ∈ l))).map (pyFind l) with
  | [] => -1
  | x :: xs => xs.foldl min x

/-- analyze.py line 67: end = max(text.rfind with brace, text.rfind with
bracket). -/
def endIdx (l : List Char) : Int :=
  max (pyRFind l '}') (pyRFind l ']')

/-- Python text[s : e] for 0 ≤ s ≤ e. -/
def pySlice (l : List Char) (s e : Nat) : List Char := (l.drop s).take (e - s)

/-- analyze.py lines 51-72, _parse_json_response. json.loads is an
external collaborator, abstracted as a parser returning none exactly when
its input is not valid JSON; both the missing-span ValueError of line 70
and a json.loads failure are embedded as Except.error carrying the cleaned
text, and either one propagates out of the attempt, so it counts as a hard
per-attempt failure for with_retry. -/
def parse_json_response (J : Type) (parse : List Char → Option J)
    (text : List Char) : Except (List Char) J :=
  let t := cleanup text
  if startIdx t = -1 ∨ endIdx t = -1 then Except.error t
  else
    match parse (pySlice t (startIdx t).toNat ((endIdx t).toNat + 1)) with
    | some j => Except.ok j
    | none => Except.error t

/-- Example segment: the earlier of two overlap duplicates sharing the
tc_start "00:10:00". -/
def segEarly : Seg := { tc_start := some "00:10:00", payload := "early" }

/-- Example segment: the later duplicate with the same tc_start. -/
def segLate : Seg := { tc_start := some "00:10:00", payload := "late" }

/-- Example chunk result holding segEarly. -/
def crEarly : ChunkResult := ⟨"P1", [segEarly], "O1"⟩

/-- Example chunk result holding segLate. -/
def crLate : ChunkResult := ⟨"P2", [segLate], "O2"⟩

/-- Example segment with no tc_start key at all. -/
def segNoTc : Seg := { tc_start := none, payload := "first-missing" }

/-- Example segment whose tc_start is present but empty. -/
def segEmptyTc : Seg := { tc_start := some "", payload := "second-empty" }

/-- Example chunk result holding segNoTc. -/
def crNoTc : ChunkResult := ⟨"P1", [segNoTc], "O1"⟩

/-- Example chunk result holding segEmptyTc. -/
def crEmptyTc : ChunkResult := ⟨"P2", [segEmptyTc], "O2"⟩

/-- Example primary segment for the enrichment claims. -/
def segPrimary : Seg := { tc_start := some "00:01:00", payload := "primary" }

/-- Example blind segment whose tc_start differs from segPrimary. -/
def segBlind : Seg :=
  { tc_start := some "00:02:00", ce_qui_me_retient := some "c", payload := "blind" }

/-- Example primary per-video analysis. -/
def crPrimary : ChunkResult := ⟨"P", [segPrimary], "O"⟩

/-- Example blind per-video analysis. -/
def crBlind : ChunkResult := ⟨"B", [segBlind], "OB"⟩

/-- Example inference response text with surrounding noise. -/
def jsonTextEx : List Char := "see [1, 2] ok".toList

/-- Every state of the chunk_video loop with start < duration_s steps to a
state that still satisfies start < duration_s: the new start is
min(start + CHUNK_DURATION_S, duration_s) - CHUNK_OVERLAP_S, which is at
most duration_s - 30. Hence the loop never exits, whatever the fuel. -/
theorem chunkAux_none (duration_s : ℚ) (fuel : Nat) :
    ∀ (start : ℚ) (acc : List Chunk), start < duration_s →
      chunkAux duration_s fuel start acc = none := by
  induction fuel with
  | zero => intro start acc _; rfl
  | succ n ih =>
    intro start acc h
    unfold chunkAux
    rw [if_pos h]
    apply ih
    have h1 : min (start + CHUNK_DURATION_S) duration_s ≤ duration_s :=
      min_le_right _ _
    have h2 : (0 : ℚ) < CHUNK_OVERLAP_S := by norm_num [CHUNK_OVERLAP_S]
    linarith

/-- Claim C1. The claim asserts that for durations above the chunk
duration the chunk list produced by chunk_video covers exactly [0, D).
The code produces no chunk list at all: at the concrete duration 7800
(the 130-minute example of the specification), the while loop of
chunk_video never exits, for any amount of fuel, so no list is returned. -/
theorem chunk_video_diverges_spec_example (fuel : Nat) :
    chunk_video 7800 fuel = none :=
  chunkAux_none 7800 fuel 0 [] (by norm_num)

/-- Claim C2. The claim asserts termination of the chunk_video loop for
every finite positive duration. In the code the boundary recurrence
start = min(start + CHUNK_DURATION_S, D) - CHUNK_OVERLAP_S keeps start
strictly below D forever, so the loop never reaches start ≥ D and
chunk_video diverges for every positive duration. -/
theorem chunk_video_never_returns (duration_s : ℚ) (hpos : 0 < duration_s)
    (fuel : Nat) : chunk_video duration_s fuel = none :=
  chunkAux_none duration_s fuel 0 [] hpos

/-- Witness for chunk_video_never_returns at duration 3600 and fuel 100. -/
theorem chunk_video_never_returns_witness :
    (0 : ℚ) < 3600 ∧ chunk_video 3600 100 = none :=
  ⟨by norm_num, chunk_video_never_returns 3600 (by norm_num) 100⟩

/-- Counterexample to claim C3 as stated: starting from the empty ledger,
mark_done "X" followed by mark_failed "X" leaves "X" simultaneously in the
processed set and in the failed list, because mark_failed never removes a
name from processed. -/
theorem ledger_both_counterexample :
    "X" ∈ (mark_failed (mark_done emptyTracker "X") "X" "err" 3).processed ∧
    "X" ∈ failed_files (mark_failed (mark_done emptyTracker "X") "X" "err" 3) := by
  decide

/-- Claim C3, amended. The exclusivity invariant holds in one direction
only: mark_done(X) puts X in processed and removes every failure record
for X, for any ledger state; but mark_failed leaves the processed list
untouched, so a processed name that later fails ends up in both sets. -/
theorem ledger_exclusivity_amended :
    (∀ (tr : Tracker) (x : String),
      x ∉ failed_files (mark_done tr x) ∧ x ∈ (mark_done tr x).processed)
    ∧ (∀ (tr : Tracker) (x e : String) (a : Nat),
      (mark_failed tr x e a).processed = tr.processed) := by
  constructor
  · intro tr x
    constructor
    · simp [failed_files, mark_done]
    · show x ∈ (if x ∈ tr.processed then tr.processed else tr.processed ++ [x])
      split
      · assumption
      · simp
  · intro tr x e a
    unfold mark_failed
    split <;> rfl

/-- Clearing the failure records of v removes v from the failed names. -/
theorem not_mem_failed_clear (t : Tracker) (v : String) :
    v ∉ failed_files (clear_failure t v) := by
  simp [failed_files, clear_failure]

/-- Clearing the failure records of some video never adds a failed name. -/
theorem clear_preserves_not_mem (t : Tracker) (v w : String)
    (h : w ∉ failed_files t) : w ∉ failed_files (clear_failure t v) := by
  simp only [failed_files, clear_failure, List.mem_map] at h ⊢
  rintro ⟨f, hf, rfl⟩
  exact h ⟨f, (List.mem_filter.mp hf).1, rfl⟩

/-- After folding clear_failure over a list of names, no name of that list
(and no name already absent) is among the failed names. -/
theorem clearAll_not_mem (l : List String) (t : Tracker) (v : String)
    (h : v ∈ l ∨ v ∉ failed_files t) :
    v ∉ failed_files (l.foldl clear_failure t) := by
  induction l generalizing t with
  | nil => simpa using h.resolve_left (by simp)
  | cons x xs ih =>
    simp only [List.foldl_cons]
    apply ih
    rcases h with h | h
    · rcases List.mem_cons.mp h with rfl | hx
      · exact Or.inr (not_mem_failed_clear t v)
      · exact Or.inl hx
    · exact Or.inr (clear_preserves_not_mem t x v h)

/-- Counterexample to claim C4 as stated: with_retry records unit names
decorated with a suffix (here "a.mp4_chunk_0"), while the retry-failed
filter of main compares plain video names against the failed list; the
failed unit "a.mp4_chunk_0" is in the ledger, yet the selection for the
collected video "a.mp4" is empty, so that failed unit is not re-executed. -/
theorem retry_failed_counterexample :
    "a.mp4_chunk_0" ∈ failed_files (Tracker.mk [] [⟨"a.mp4_chunk_0", "err", 3⟩])
    ∧ (retry_failed_filter ["a.mp4"] (Tracker.mk [] [⟨"a.mp4_chunk_0", "err", 3⟩])).1 = []
    ∧ "a.mp4_chunk_0" ∉ (retry_failed_filter ["a.mp4"] (Tracker.mk [] [⟨"a.mp4_chunk_0", "err", 3⟩])).1 := by
  decide

/-- Claim C4, amended. In retry-only-failed mode, a video is selected for
execution exactly when it is among the collected videos and its name is in
the failed list, and every selected video has its failure record cleared
before execution; failed units whose recorded names are not collected
video names are not re-executed. -/
theorem retry_failed_amended (videos : List String) (tr : Tracker) :
    (∀ v : String, v ∈ (retry_failed_filter videos tr).1 ↔
      v ∈ videos ∧ v ∈ failed_files tr)
    ∧ (∀ v ∈ (retry_failed_filter videos tr).1,
      v ∉ failed_files (retry_failed_filter videos tr).2) := by
  constructor
  · intro v
    simp [retry_failed_filter, List.mem_filter]
  · intro v hv
    simp only [retry_failed_filter] at hv ⊢
    exact clearAll_not_mem _ tr v (Or.inl hv)

/-- Witness for retry_failed_amended: a ledger whose failed list holds the
plain name "b.mp4" selects that video and clears its record. -/
theorem retry_failed_amended_witness :
    "b.mp4" ∈ (retry_failed_filter ["b.mp4"] (Tracker.mk [] [⟨"b.mp4", "e", 1⟩])).1
    ∧ "b.mp4" ∉ failed_files (retry_failed_filter ["b.mp4"] (Tracker.mk [] [⟨"b.mp4", "e", 1⟩])).2 :=
  ⟨by decide,
   (retry_failed_amended ["b.mp4"] (Tracker.mk [] [⟨"b.mp4", "e", 1⟩])).2 "b.mp4" (by decide)⟩

/-- Upserting a failure record puts that record in the failed list, also
when an existing record for the same name is overwritten in place. -/
theorem mem_updateFirstFail (l : List FailRec) (n e : String) (a : Nat)
    (h : ∃ f ∈ l, f.file = n) :
    (⟨n, e, a⟩ : FailRec) ∈ updateFirstFail l n e a := by
  induction l with
  | nil => simp at h
  | cons f rest ih =>
    simp only [updateFirstFail]
    by_cases hf : f.file = n
    · rw [if_pos (by simp [hf])]
      have hrec : ({ f with error := e, attempts := a } : FailRec) = ⟨n, e, a⟩ := by
        cases f
        simp_all
      rw [hrec]
      exact List.mem_cons_self _ _
    · rw [if_neg (by simp [hf])]
      rcases h with ⟨g, hg, hgn⟩
      rcases List.mem_cons.mp hg with rfl | hg2
      · exact absurd hgn hf
      · exact List.mem_cons_of_mem _ (ih ⟨g, hg2, hgn⟩)

/-- mark_failed always leaves a record with the given name, error and
attempt count in the failed list. -/
theorem mem_mark_failed_self (tr : Tracker) (n e : String) (a : Nat) :
    (⟨n, e, a⟩ : FailRec) ∈ (mark_failed tr n e a).failed := by
  unfold mark_failed
  by_cases hc : tr.failed.any (fun f => f.file == n) = true
  · rw [if_pos hc]
    apply mem_updateFirstFail
    rcases List.any_eq_true.mp hc with ⟨f, hf, hfn⟩
    exact ⟨f, hf, by simpa using hfn⟩
  · rw [if_neg hc]
    simp

/-- Claim C5. An operation that raises on every invocation is attempted
exactly MAX_RETRIES times by with_retry; the sleeps performed between
consecutive attempts are the first MAX_RETRIES - 1 entries of the
RETRY_BACKOFF schedule, in order; the unit is recorded failed with the
text of the last error and attempts = MAX_RETRIES; and the explicit
no-result signal none is returned. -/
theorem with_retry_exhausts {α : Type} (errs : Nat → String)
    (video_name : String) (tr : Tracker) :
    (with_retry (fun a => (Except.error (errs a) : Except String α)) video_name tr).result = none
    ∧ (with_retry (fun a => (Except.error (errs a) : Except String α)) video_name tr).calls = MAX_RETRIES
    ∧ (with_retry (fun a => (Except.error (errs a) : Except String α)) video_name tr).sleeps
        = RETRY_BACKOFF.take (MAX_RETRIES - 1)
    ∧ (with_retry (fun a => (Except.error (errs a) : Except String α)) video_name tr).tracker
        = mark_failed tr video_name (errs MAX_RETRIES) MAX_RETRIES
    ∧ (⟨video_name, errs MAX_RETRIES, MAX_RETRIES⟩ : FailRec)
        ∈ (with_retry (fun a => (Except.error (errs a) : Except String α)) video_name tr).tracker.failed :=
  ⟨rfl, rfl, rfl, rfl, mem_mark_failed_self tr video_name (errs 3) 3⟩

/-- The dedup loop only drops elements: its output is a sublist of its
input, whatever keys were already seen. -/
theorem dedupSegs_sublist (l : List Seg) (seen : List String) :
    (dedupSegs l seen).Sublist l := by
  induction l generalizing seen with
  | nil => simp [dedupSegs]
  | cons s rest ih =>
    simp only [dedupSegs]
    split
    · exact (ih seen).cons s
    · exact (ih (segKey s :: seen)).cons₂ s

/-- The segments the dedup loop keeps for a given key: none when the key
was already seen, otherwise exactly the first input segment carrying it. -/
theorem dedupSegs_filter_key (l : List Seg) :
    ∀ (seen : List String) (k : String),
    (dedupSegs l seen).filter (fun s => segKey s == k) =
      if k ∈ seen then [] else (l.filter (fun s => segKey s == k)).take 1 := by
  induction l with
  | nil =>
    intro seen k
    by_cases h : k ∈ seen <;> simp [dedupSegs, h]
  | cons s rest ih =>
    intro seen k
    by_cases hk : segKey s = k
    · subst hk
      by_cases hc : segKey s ∈ seen
      · simp [dedupSegs, hc, ih, List.filter_cons]
      · simp [dedupSegs, hc, ih, List.filter_cons]
    · have hk2 : (segKey s == k) = false := by simp [hk]
      by_cases hc : segKey s ∈ seen
      · have hck : k ∈ seen → True := fun _ => trivial
        simp only [dedupSegs, if_pos hc, ih, List.filter_cons, hk2]
        rfl
      · have hmem : (k ∈ segKey s :: seen) ↔ k ∈ seen := by
          constructor
          · intro h
            rcases List.mem_cons.mp h with h1 | h1
            · exact absurd h1.symm hk
            · exact h1
          · exact fun h => List.mem_cons_of_mem _ h
        simp only [dedupSegs, if_neg hc, List.filter_cons, hk2]
        simp only [Bool.false_eq_true, if_false, ih, hmem]

/-- The concatenated segment list is as long as the per-chunk counts sum. -/
theorem allSegs_length (rs : List ChunkResult) :
    (allSegs rs).length = (rs.map (fun r => r.segments.length)).sum := by
  induction rs with
  | nil => rfl
  | cons r rs ih => simp [allSegs, ih]

/-- Claim C6. Merging two or more chunk results concatenates their
segments in chunk order and keeps, for each tc_start key, only the first
occurrence (so overlap duplicates from later chunks are dropped and the
survivor comes from the earlier chunk); the merged segment list is a
sublist of the concatenation and its length is at most the sum of the
per-chunk segment counts. -/
theorem merge_first_occurrence (rs : List ChunkResult) (h2 : 2 ≤ rs.length)
    (m : ChunkResult) (hm : merge_chunk_results rs = some m) :
    (∀ k : String, m.segments.filter (fun s => segKey s == k)
        = ((allSegs rs).filter (fun s => segKey s == k)).take 1)
    ∧ m.segments.Sublist (allSegs rs)
    ∧ m.segments.length ≤ (rs.map (fun r => r.segments.length)).sum := by
  match rs with
  | [] => simp at h2
  | [r] => simp at h2
  | r1 :: r2 :: rest =>
    have hred : merge_chunk_results (r1 :: r2 :: rest) = some
        { video_profil := r1.video_profil
        , segments := dedupSegs (allSegs (r1 :: r2 :: rest)) []
        , observations_globales :=
            ((r1 :: r2 :: rest).getLast (List.cons_ne_nil _ _)).observations_globales } := rfl
    rw [hred] at hm
    obtain rfl := Option.some.inj hm
    refine ⟨fun k => ?_, ?_, ?_⟩
    · simpa using dedupSegs_filter_key (allSegs (r1 :: r2 :: rest)) [] k
    · exact dedupSegs_sublist _ _
    · exact le_of_le_of_eq (dedupSegs_sublist _ _).length_le
        (allSegs_length (r1 :: r2 :: rest))

/-- Witness for merge_first_occurrence: two chunk results sharing the
tc_start "00:10:00" merge into one segment with that key, taken from the
earlier chunk. -/
theorem merge_first_occurrence_witness :
    2 ≤ ([crEarly, crLate] : List ChunkResult).length
    ∧ merge_chunk_results [crEarly, crLate] = some ⟨"P1", [segEarly], "O2"⟩
    ∧ (⟨"P1", [segEarly], "O2"⟩ : ChunkResult).segments.filter
        (fun s => segKey s == "00:10:00")
        = ((allSegs [crEarly, crLate]).filter (fun s => segKey s == "00:10:00")).take 1
    ∧ (⟨"P1", [segEarly], "O2"⟩ : ChunkResult).segments.length
        ≤ ([crEarly, crLate].map (fun r => r.segments.length)).sum :=
  ⟨by decide, rfl,
   (merge_first_occurrence [crEarly, crLate] (by decide)
      ⟨"P1", [segEarly], "O2"⟩ rfl).1 "00:10:00",
   (merge_first_occurrence [crEarly, crLate] (by decide)
      ⟨"P1", [segEarly], "O2"⟩ rfl).2.2⟩

/-- Claim C7. merge_chunk_results is the identity on singleton lists, and
for two or more chunk results the merged profile is the first chunk's
video_profil while the merged global observations are the last chunk's
observations_globales. -/
theorem merge_singleton_profile_obs :
    (∀ r : ChunkResult, merge_chunk_results [r] = some r)
    ∧ (∀ (r1 r2 : ChunkResult) (rest : List ChunkResult) (m : ChunkResult),
        merge_chunk_results (r1 :: r2 :: rest) = some m →
        m.video_profil = r1.video_profil ∧
        m.observations_globales
          = ((r2 :: rest).getLast (List.cons_ne_nil r2 rest)).observations_globales) := by
  constructor
  · intro r
    rfl
  · intro r1 r2 rest m hm
    have hred : merge_chunk_results (r1 :: r2 :: rest) = some
        { video_profil := r1.video_profil
        , segments := dedupSegs (allSegs (r1 :: r2 :: rest)) []
        , observations_globales :=
            ((r1 :: r2 :: rest).getLast (List.cons_ne_nil _ _)).observations_globales } := rfl
    rw [hred] at hm
    obtain rfl := Option.some.inj hm
    exact ⟨rfl, rfl⟩

/-- Witness for merge_singleton_profile_obs: singleton passthrough on
crEarly, and profile/observations provenance on the pair. -/
theorem merge_singleton_profile_obs_witness :
    merge_chunk_results [crEarly] = some crEarly
    ∧ ((⟨"P1", [segEarly], "O2"⟩ : ChunkResult).video_profil = crEarly.video_profil
       ∧ (⟨"P1", [segEarly], "O2"⟩ : ChunkResult).observations_globales
         = (([crLate] : List ChunkResult).getLast (List.cons_ne_nil crLate [])).observations_globales) :=
  ⟨merge_singleton_profile_obs.1 crEarly,
   merge_singleton_profile_obs.2 crEarly crLate [] ⟨"P1", [segEarly], "O2"⟩ rfl⟩

/-- Claim C10. A segment with a missing tc_start and a segment with an
empty tc_start share the dedup key "": at most one segment with that key
— the first in chunk order — survives the merge, and every later segment
lacking a tc_start is dropped regardless of its other content. -/
theorem merge_missing_tc_collapse (rs : List ChunkResult) (h2 : 2 ≤ rs.length)
    (m : ChunkResult) (hm : merge_chunk_results rs = some m) :
    (∀ s : Seg, segKey s = "" ↔ (s.tc_start = none ∨ s.tc_start = some ""))
    ∧ m.segments.filter (fun s => segKey s == "")
        = ((allSegs rs).filter (fun s => segKey s == "")).take 1
    ∧ (m.segments.filter (fun s => segKey s == "")).length ≤ 1 := by
  match rs with
  | [] => simp at h2
  | [r] => simp at h2
  | r1 :: r2 :: rest =>
    have hred : merge_chunk_results (r1 :: r2 :: rest) = some
        { video_profil := r1.video_profil
        , segments := dedupSegs (allSegs (r1 :: r2 :: rest)) []
        , observations_globales :=
            ((r1 :: r2 :: rest).getLast (List.cons_ne_nil _ _)).observations_globales } := rfl
    rw [hred] at hm
    obtain rfl := Option.some.inj hm
    have hfil : (dedupSegs (allSegs (r1 :: r2 :: rest)) []).filter
        (fun s => segKey s == "")
        = ((allSegs (r1 :: r2 :: rest)).filter (fun s => segKey s == "")).take 1 := by
      simpa using dedupSegs_filter_key (allSegs (r1 :: r2 :: rest)) [] ""
    refine ⟨fun s => ?_, hfil, ?_⟩
    · cases h : s.tc_start <;> simp [segKey, h]
    · show ((dedupSegs (allSegs (r1 :: r2 :: rest)) []).filter
        (fun s => segKey s == "")).length ≤ 1
      rw [hfil]
      exact List.length_take_le 1 _

/-- Witness for merge_missing_tc_collapse: a chunk result whose segment
has no tc_start merged with one whose segment has an empty tc_start keeps
only the first of the two. -/
theorem merge_missing_tc_collapse_witness :
    2 ≤ ([crNoTc, crEmptyTc] : List ChunkResult).length
    ∧ merge_chunk_results [crNoTc, crEmptyTc] = some ⟨"P1", [segNoTc], "O2"⟩
    ∧ (⟨"P1", [segNoTc], "O2"⟩ : ChunkResult).segments.filter (fun s => segKey s == "")
        = ((allSegs [crNoTc, crEmptyTc]).filter (fun s => segKey s == "")).take 1 :=
  ⟨by decide, rfl,
   (merge_missing_tc_collapse [crNoTc, crEmptyTc] (by decide)
      ⟨"P1", [segNoTc], "O2"⟩ rfl).2.1⟩

/-- A blind segment is indexed under a key exactly when its tc_start is
present, equal to that key, and non-empty (Python truthiness). -/
theorem truthyKey_eq_some (s : Seg) (t : String) :
    truthyKey s = some t ↔ (s.tc_start = some t ∧ t ≠ "") := by
  unfold truthyKey
  split
  · rename_i u heq
    rw [heq]
    by_cases hu : u = ""
    · rw [if_pos hu]
      subst hu
      constructor
      · intro hx
        exact absurd hx (by simp)
      · rintro ⟨hx, hne⟩
        exact absurd (Option.some.inj hx).symm hne
    · rw [if_neg hu]
      constructor
      · intro hx
        obtain rfl := Option.some.inj hx
        exact ⟨rfl, hu⟩
      · rintro ⟨hx, _⟩
        exact hx
  · rename_i heq
    rw [heq]
    simp

/-- enrichSeg only ever writes the three blind fields: the tc_start and
the opaque payload of a primary segment are always preserved. -/
theorem enrichSeg_preserves (bsegs : List Seg) (s : Seg) :
    (enrichSeg bsegs s).tc_start = s.tc_start
    ∧ (enrichSeg bsegs s).payload = s.payload := by
  unfold enrichSeg
  split
  · exact ⟨rfl, rfl⟩
  · split
    · exact ⟨rfl, rfl⟩
    · split
      · exact ⟨rfl, rfl⟩
      · exact ⟨rfl, rfl⟩

/-- Claim C8. A primary segment whose tc_start has no exact-string match
among the secondary (blind) segments is left unmodified; a primary and a
secondary analysis sharing zero tc_start values enrich to a result
byte-identical to the primary; and secondary segments contribute nothing
of their own: the enriched list has exactly the primary segments, each
keeping its tc_start and payload. -/
theorem enrich_no_match_id :
    (∀ (bsegs : List Seg) (seg : Seg),
        (seg.tc_start = none ∨ seg.tc_start = some ""
          ∨ ∀ tc : String, seg.tc_start = some tc → blind_by_tc bsegs tc = none) →
        enrichSeg bsegs seg = seg)
    ∧ (∀ a b : ChunkResult,
        (∀ s ∈ a.segments, ∀ bs ∈ b.segments,
          s.tc_start = none ∨ s.tc_start ≠ bs.tc_start) →
        enrich_with_blind a b = a)
    ∧ (∀ a b : ChunkResult,
        (enrich_with_blind a b).segments.length = a.segments.length
        ∧ ∀ s ∈ (enrich_with_blind a b).segments, ∃ s0 ∈ a.segments,
            s.tc_start = s0.tc_start ∧ s.payload = s0.payload) := by
  have h1 : ∀ (bsegs : List Seg) (seg : Seg),
      (seg.tc_start = none ∨ seg.tc_start = some ""
        ∨ ∀ tc : String, seg.tc_start = some tc → blind_by_tc bsegs tc = none) →
      enrichSeg bsegs seg = seg := by
    intro bsegs seg h
    unfold enrichSeg
    split
    · rfl
    · rename_i tc hts
      by_cases htc : tc = ""
      · rw [if_pos htc]
      · rw [if_neg htc]
        rcases h with h | h | h
        · rw [hts] at h
          exact absurd h (by simp)
        · rw [hts] at h
          exact absurd (Option.some.inj h) htc
        · rw [h tc hts]
  refine ⟨h1, ?_, ?_⟩
  · intro a b hdisj
    have hmap : ∀ s ∈ a.segments, enrichSeg b.segments s = s := by
      intro s hs
      apply h1
      cases hts : s.tc_start with
      | none => exact Or.inl rfl
      | some tc =>
        refine Or.inr (Or.inr fun tc2 hts2 => ?_)
        obtain rfl := Option.some.inj hts2
        unfold blind_by_tc
        rw [List.filter_eq_nil_iff.mpr ?_]
        · rfl
        · intro bs hbs hq
          have hkey := (truthyKey_eq_some bs tc).mp (by simpa using hq)
          rcases hdisj s hs bs hbs with hd | hd
          · rw [hts] at hd
            exact absurd hd (by simp)
          · rw [hts, hkey.1] at hd
            exact hd rfl
    obtain ⟨p, segs, o⟩ := a
    have hsegs : segs.map (enrichSeg b.segments) = segs :=
      (List.map_congr_left hmap).trans (List.map_id segs)
    simp [enrich_with_blind, hsegs]
  · intro a b
    constructor
    · simp [enrich_with_blind]
    · intro s hs
      simp only [enrich_with_blind, List.mem_map] at hs
      rcases hs with ⟨s0, hs0, rfl⟩
      exact ⟨s0, hs0, (enrichSeg_preserves b.segments s0).1,
        (enrichSeg_preserves b.segments s0).2⟩

/-- Witness for enrich_no_match_id: a primary and a blind analysis with
disjoint tc_start values enrich to the primary unchanged. -/
theorem enrich_no_match_id_witness :
    (∀ s ∈ crPrimary.segments, ∀ bs ∈ crBlind.segments,
      s.tc_start = none ∨ s.tc_start ≠ bs.tc_start)
    ∧ enrich_with_blind crPrimary crBlind = crPrimary :=
  ⟨by decide, enrich_no_match_id.2.1 crPrimary crBlind (by decide)⟩

/-- An element read at an in-range position belongs to the list. -/
theorem getD_mem_of_lt (l : List Char) (i : Nat) (h : i < l.length) :
    l.getD i ' ' ∈ l := by
  induction l generalizing i with
  | nil => simp at h
  | cons x xs ih =>
    cases i with
    | zero => simp
    | succ k =>
      simp only [List.getD_cons_succ]
      exact List.mem_cons_of_mem _ (ih k (by simpa using h))

/-- pyFind returns -1 or a non-negative index. -/
theorem pyFind_nonneg_or (l : List Char) (c : Char) :
    pyFind l c = -1 ∨ 0 ≤ pyFind l c := by
  induction l with
  | nil => exact Or.inl rfl
  | cons x xs ih =>
    unfold pyFind
    by_cases hx : x = c
    · rw [if_pos hx]
      exact Or.inr (by omega)
    · rw [if_neg hx]
      rcases ih with h | h
      · rw [if_pos h]
        exact Or.inl rfl
      · rw [if_neg (by omega)]
        exact Or.inr (by omega)

/-- pyFind is -1 when the character does not occur. -/
theorem pyFind_eq_neg_one (l : List Char) (c : Char) (h : ∀ x ∈ l, x ≠ c) :
    pyFind l c = -1 := by
  induction l with
  | nil => rfl
  | cons x xs ih =>
    unfold pyFind
    rw [if_neg (h x (List.mem_cons_self x xs)),
      if_pos (ih fun y hy => h y (List.mem_cons_of_mem x hy))]

/-- pyFind is non-negative when the character occurs. -/
theorem pyFind_nonneg_of_mem (l : List Char) (c : Char) (h : c ∈ l) :
    0 ≤ pyFind l c := by
  induction l with
  | nil => simp at h
  | cons x xs ih =>
    unfold pyFind
    by_cases hx : x = c
    · rw [if_pos hx]
    · rw [if_neg hx]
      have hc : c ∈ xs := by
        rcases List.mem_cons.mp h with h1 | h1
        · exact absurd h1.symm hx
        · exact h1
      have h0 := ih hc
      rw [if_neg (by omega)]
      omega

/-- pyFind computes the first occurrence: if position i holds the
character and no earlier position does, the result is i. -/
theorem pyFind_first (l : List Char) (c : Char) :
    ∀ (i : Nat), (∀ x ∈ l.take i, x ≠ c) → i < l.length → l.getD i ' ' = c →
    pyFind l c = i := by
  induction l with
  | nil =>
    intro i _ hi _
    simp at hi
  | cons x xs ih =>
    intro i hbefore hi hx
    cases i with
    | zero =>
      unfold pyFind
      rw [if_pos (by simpa using hx)]
      simp
    | succ j =>
      have hxc : x ≠ c := hbefore x (by simp)
      have hj := ih j (fun y hy => hbefore y (by simp [hy]))
        (by simpa using hi) (by simpa using hx)
      unfold pyFind
      rw [if_neg hxc, if_neg (by omega), hj]
      push_cast
      omega

/-- When no position before i holds the character, pyFind is -1 or at
least i. -/
theorem pyFind_lower (l : List Char) (c : Char) :
    ∀ (i : Nat), (∀ x ∈ l.take i, x ≠ c) →
    pyFind l c = -1 ∨ (i : Int) ≤ pyFind l c := by
  induction l with
  | nil =>
    intro i _
    exact Or.inl rfl
  | cons x xs ih =>
    intro i hbefore
    cases i with
    | zero =>
      rcases pyFind_nonneg_or (x :: xs) c with h | h
      · exact Or.inl h
      · exact Or.inr (by omega)
    | succ j =>
      have hxc : x ≠ c := hbefore x (by simp)
      have hrec := ih j (fun y hy => hbefore y (by simp [hy]))
      unfold pyFind
      rw [if_neg hxc]
      rcases hrec with h | h
      · rw [if_pos h]
        exact Or.inl rfl
      · rw [if_neg (by omega)]
        right
        push_cast
        omega

/-- pyRFind is -1 when the character does not occur. -/
theorem pyRFind_eq_neg_one (l : List Char) (c : Char) (h : ∀ x ∈ l, x ≠ c) :
    pyRFind l c = -1 := by
  induction l with
  | nil => rfl
  | cons x xs ih =>
    unfold pyRFind
    rw [if_pos (ih fun y hy => h y (List.mem_cons_of_mem x hy)),
      if_neg (h x (by simp))]

/-- When no position after j holds the character, pyRFind is at most j. -/
theorem pyRFind_upper (l : List Char) (c : Char) :
    ∀ (j : Nat), (∀ x ∈ l.drop (j + 1), x ≠ c) → pyRFind l c ≤ (j : Int) := by
  induction l with
  | nil =>
    intro j _
    show (-1 : Int) ≤ (j : Int)
    omega
  | cons x xs ih =>
    intro j hafter
    cases j with
    | zero =>
      have hxs : pyRFind xs c = -1 :=
        pyRFind_eq_neg_one xs c (fun y hy => hafter y (by simpa using hy))
      unfold pyRFind
      rw [if_pos hxs]
      split <;> omega
    | succ k =>
      have hk := ih k (fun y hy => hafter y (by simpa using hy))
      unfold pyRFind
      by_cases h1 : pyRFind xs c = -1
      · rw [if_pos h1]
        split <;> omega
      · rw [if_neg h1]
        push_cast
        omega

/-- pyRFind computes the last occurrence: if position j holds the
character and no later position does, the result is j. -/
theorem pyRFind_last (l : List Char) (c : Char) :
    ∀ (j : Nat), j < l.length → l.getD j ' ' = c → (∀ x ∈ l.drop (j + 1), x ≠ c) →
    pyRFind l c = j := by
  induction l with
  | nil =>
    intro j hj _ _
    simp at hj
  | cons x xs ih =>
    intro j hj hx hafter
    cases j with
    | zero =>
      have hxs : pyRFind xs c = -1 :=
        pyRFind_eq_neg_one xs c (fun y hy => hafter y (by simpa using hy))
      unfold pyRFind
      rw [if_pos hxs, if_pos (by simpa using hx)]
      simp
    | succ k =>
      have hk := ih k (by simpa using hj) (by simpa using hx)
        (fun y hy => hafter y (by simpa using hy))
      unfold pyRFind
      rw [if_neg (by omega), hk]
      push_cast
      omega

/-- The start index computed on line 63-66 of analyze.py is the first
position holding an opening brace or bracket. -/
theorem startIdx_spec (t : List Char) (i : Nat) (hi : i < t.length)
    (hopen : t.getD i ' ' = '{' ∨ t.getD i ' ' = '[')
    (hbefore : ∀ x ∈ t.take i, x ≠ '{' ∧ x ≠ '[') : startIdx t = i := by
  unfold startIdx
  rcases hopen with hx | hx
  · have hmem : '{' ∈ t := hx ▸ getD_mem_of_lt t i hi
    have hfind : pyFind t '{' = i :=
      pyFind_first t '{' i (fun x hxx => (hbefore x hxx).1) hi hx
    by_cases hmem2 : '[' ∈ t
    · have hnn := pyFind_nonneg_of_mem t '[' hmem2
      have hge : (i : Int) ≤ pyFind t '[' := by
        rcases pyFind_lower t '[' i (fun x hxx => (hbefore x hxx).2) with h | h
        · omega
        · exact h
      have hlist : (['{', '['].filter (fun c => decide (c ∈ t))).map (pyFind t)
          = [pyFind t '{', pyFind t '['] := by
        simp [List.filter_cons, hmem, hmem2]
      rw [hlist]
      show List.foldl min (pyFind t '{') [pyFind t '['] = i
      simp only [List.foldl_cons, List.foldl_nil]
      rw [hfind]
      exact min_eq_left hge
    · have hlist : (['{', '['].filter (fun c => decide (c ∈ t))).map (pyFind t)
          = [pyFind t '{'] := by
        simp [List.filter_cons, hmem, hmem2]
      rw [hlist]
      show pyFind t '{' = i
      exact hfind
  · have hmem : '[' ∈ t := hx ▸ getD_mem_of_lt t i hi
    have hfind : pyFind t '[' = i :=
      pyFind_first t '[' i (fun x hxx => (hbefore x hxx).2) hi hx
    by_cases hmem2 : '{' ∈ t
    · have hnn := pyFind_nonneg_of_mem t '{' hmem2
      have hge : (i : Int) ≤ pyFind t '{' := by
        rcases pyFind_lower t '{' i (fun x hxx => (hbefore x hxx).1) with h | h
        · omega
        · exact h
      have hlist : (['{', '['].filter (fun c => decide (c ∈ t))).map (pyFind t)
          = [pyFind t '{', pyFind t '['] := by
        simp [List.filter_cons, hmem, hmem2]
      rw [hlist]
      show List.foldl min (pyFind t '{') [pyFind t '['] = i
      simp only [List.foldl_cons, List.foldl_nil]
      rw [hfind]
      exact min_eq_right hge
    · have hlist : (['{', '['].filter (fun c => decide (c ∈ t))).map (pyFind t)
          = [pyFind t '['] := by
        simp [List.filter_cons, hmem, hmem2]
      rw [hlist]
      show pyFind t '[' = i
      exact hfind

/-- The end index computed on line 67 of analyze.py is the last position
holding a closing brace or bracket. -/
theorem endIdx_spec (t : List Char) (j : Nat) (hj : j < t.length)
    (hclose : t.getD j ' ' = '}' ∨ t.getD j ' ' = ']')
    (hafter : ∀ x ∈ t.drop (j + 1), x ≠ '}' ∧ x ≠ ']') : endIdx t = j := by
  unfold endIdx
  rcases hclose with hx | hx
  · have h1 : pyRFind t '}' = j :=
      pyRFind_last t '}' j hj hx (fun x hxx => (hafter x hxx).1)
    have h2 : pyRFind t ']' ≤ (j : Int) :=
      pyRFind_upper t ']' j (fun x hxx => (hafter x hxx).2)
    rw [h1]
    exact max_eq_left h2
  · have h1 : pyRFind t ']' = j :=
      pyRFind_last t ']' j hj hx (fun x hxx => (hafter x hxx).2)
    have h2 : pyRFind t '}' ≤ (j : Int) :=
      pyRFind_upper t '}' j (fun x hxx => (hafter x hxx).1)
    rw [h1]
    exact max_eq_right h2

/-- Claim C9. The extractor of _parse_json_response works on the cleaned
response text (stripped of surrounding whitespace and markdown fencing):
when the cleaned text has no opening brace or bracket, or no closing brace
or bracket, the call is an error (the hard per-attempt failure); otherwise
the slice from the first opening brace or bracket through the last closing
brace or bracket is handed to the JSON parser, whose failure on that span
is also an error, and whose success is returned. -/
theorem parse_json_span (J : Type) (parse : List Char → Option J)
    (text : List Char) :
    ((∀ c ∈ cleanup text, c ≠ '{' ∧ c ≠ '[') →
      parse_json_response J parse text = Except.error (cleanup text))
    ∧ ((∀ c ∈ cleanup text, c ≠ '}' ∧ c ≠ ']') →
      parse_json_response J parse text = Except.error (cleanup text))
    ∧ (∀ i j : Nat, i < (cleanup text).length → j < (cleanup text).length →
        ((cleanup text).getD i ' ' = '{' ∨ (cleanup text).getD i ' ' = '[') →
        (∀ x ∈ (cleanup text).take i, x ≠ '{' ∧ x ≠ '[') →
        ((cleanup text).getD j ' ' = '}' ∨ (cleanup text).getD j ' ' = ']') →
        (∀ x ∈ (cleanup text).drop (j + 1), x ≠ '}' ∧ x ≠ ']') →
        parse_json_response J parse text =
          match parse (((cleanup text).drop i).take (j + 1 - i)) with
          | some v => Except.ok v
          | none => Except.error (cleanup text)) := by
  refine ⟨?_, ?_, ?_⟩
  · intro h
    have h1 : '{' ∉ cleanup text := fun hm => (h _ hm).1 rfl
    have h2 : '[' ∉ cleanup text := fun hm => (h _ hm).2 rfl
    have hs : startIdx (cleanup text) = -1 := by
      unfold startIdx
      have hlist : (['{', '['].filter (fun c => decide (c ∈ cleanup text))).map
          (pyFind (cleanup text)) = [] := by
        simp [List.filter_cons, h1, h2]
      rw [hlist]
    unfold parse_json_response
    rw [if_pos (Or.inl hs)]
  · intro h
    have he : endIdx (cleanup text) = -1 := by
      unfold endIdx
      rw [pyRFind_eq_neg_one _ _ (fun x hx => (h x hx).1),
        pyRFind_eq_neg_one _ _ (fun x hx => (h x hx).2)]
      simp
    unfold parse_json_response
    rw [if_pos (Or.inr he)]
  · intro i j hi hj hopen hbefore hclose hafter
    have hs := startIdx_spec (cleanup text) i hi hopen hbefore
    have he := endIdx_spec (cleanup text) j hj hclose hafter
    have hcond : ¬(startIdx (cleanup text) = -1 ∨ endIdx (cleanup text) = -1) := by
      rw [hs, he]
      push_neg
      constructor <;> omega
    unfold parse_json_response
    rw [if_neg hcond, hs, he]
    simp [pySlice]

/-- Witness for parse_json_span: in the response "see [1, 2] ok" the span
from the first opening bracket (index 4) through the last closing bracket
(index 9) is handed to the parser. -/
theorem parse_json_span_witness :
    (4 < (cleanup jsonTextEx).length ∧ 9 < (cleanup jsonTextEx).length
      ∧ ((cleanup jsonTextEx).getD 4 ' ' = '{' ∨ (cleanup jsonTextEx).getD 4 ' ' = '[')
      ∧ (∀ x ∈ (cleanup jsonTextEx).take 4, x ≠ '{' ∧ x ≠ '[')
      ∧ ((cleanup jsonTextEx).getD 9 ' ' = '}' ∨ (cleanup jsonTextEx).getD 9 ' ' = ']')
      ∧ (∀ x ∈ (cleanup jsonTextEx).drop 10, x ≠ '}' ∧ x ≠ ']'))
    ∧ parse_json_response (List Char) some jsonTextEx =
        match some (((cleanup jsonTextEx).drop 4).take 6) with
        | some v => Except.ok v
        | none => Except.error (cleanup jsonTextEx) :=
  ⟨⟨by decide, by decide, by decide, by decide, by decide, by decide⟩,
   (parse_json_span (List Char) some jsonTextEx).2.2 4 9 (by decide) (by decide)
     (by decide) (by decide) (by decide) (by decide)⟩

end VHS
